import Mathlib

/-!
Verification of the inline-tag tokenizer, stream builder, annotation store,
payload builder and request handling of the annotation tool.

Strings are modelled as `List Char`.  The tokenizer's regular expression
`\[([^\[\]]+)\]` is embedded as an explicit left-to-right scan (`rawScan`):
at each position the scanner attempts to match an opening bracket, a
non-empty run of non-bracket characters, and a closing bracket; on success
it records the match and resumes after it, otherwise it advances one
character.  This is exactly the semantics of `re.finditer` for this
pattern, since the character class excludes both brackets (no backtracking
can produce a different match).
-/

namespace Gomutra

/-- A character that is neither an opening nor a closing bracket
(the `[^\[\]]` character class of `TAG_PATTERN`). -/
def nonBracket (c : Char) : Bool := !(c == '[' || c == ']')

/-- The whitespace characters removed by Python's `str.strip` (ASCII set). -/
def pyIsSpace (c : Char) : Bool :=
  c == ' ' || c == '\t' || c == '\n' || c == '\r' || c == '\x0b' || c == '\x0c'

/-- Python `str.strip`: drop leading and trailing whitespace. -/
def pyStrip (s : List Char) : List Char :=
  ((s.dropWhile pyIsSpace).reverse.dropWhile pyIsSpace).reverse

/-- One extracted tag, as produced by `extract_tags` in `src/utils.py`:
`idx` is the 1-based scan position, `text` the trimmed bracket interior,
`start`/`stop` the character offsets of the whole `[...]` span
(the source dict's `"start"` and `"end"` keys). -/
structure Tag where
  idx : Nat
  text : List Char
  start : Nat
  stop : Nat
deriving DecidableEq, Repr

/-- Fueled scanner for `TAG_PATTERN.finditer`.  The fuel only serves to make
the recursion structural; `rawScan` instantiates it with the list length,
which is always sufficient. -/
def rawScanAux : Nat → List Char → Nat → List (Nat × List Char)
  | 0, _, _ => []
  | _ + 1, [], _ => []
  | fuel + 1, c :: rest, pos =>
    if c = '[' ∧ rest.takeWhile nonBracket ≠ [] ∧
        (rest.drop (rest.takeWhile nonBracket).length).head? = some ']' then
      (pos, rest.takeWhile nonBracket) ::
        rawScanAux fuel (rest.drop ((rest.takeWhile nonBracket).length + 1))
          (pos + (rest.takeWhile nonBracket).length + 2)
    else
      rawScanAux fuel rest (pos + 1)

/-- All matches of `TAG_PATTERN` in the suffix starting at absolute
position `pos`: pairs of (start offset, untrimmed interior). -/
def rawScan (s : List Char) (pos : Nat) : List (Nat × List Char) :=
  rawScanAux s.length s pos

/-- Number the matches starting at `n` and trim each interior
(`enumerate(..., start=1)` together with `m.group(1).strip()`). -/
def numberTags : Nat → List (Nat × List Char) → List Tag
  | _, [] => []
  | n, (st, mid) :: rest =>
    { idx := n, text := pyStrip mid, start := st, stop := st + mid.length + 2 }
      :: numberTags (n + 1) rest

/-- Function `extract_tags` from `src/utils.py`: empty (after stripping) input yields
no tags; otherwise every pattern match becomes a `Tag`, numbered from 1. -/
def extract_tags (s : List Char) : List Tag :=
  if pyStrip s = [] then [] else numberTags 1 (rawScan s 0)

/-- A stream segment as emitted by `build_inline_stream`: either a plain
text chunk or a tag chip carrying the trimmed tag text and its index. -/
inductive Segment where
  | text (content : List Char)
  | tag (content : List Char) (idx : Nat)
deriving DecidableEq, Repr

/-- The loop of `build_inline_stream`: walk the tags keeping a cursor
`last`; emit the gap before each tag when non-empty, then the tag chip,
and finally the trailing text when the cursor is short of the end. -/
def streamFrom (s : List Char) : List Tag → Nat → List Segment
  | [], last => if last < s.length then [Segment.text (s.drop last)] else []
  | t :: ts, last =>
    (if last < t.start then [Segment.text ((s.drop last).take (t.start - last))] else [])
      ++ Segment.tag t.text t.idx :: streamFrom s ts t.stop

/-- Function `build_inline_stream` from `src/utils.py`. -/
def build_inline_stream (s : List Char) : List Segment :=
  let tags := extract_tags s
  if tags = [] then [Segment.text s] else streamFrom s tags 0

/-- Function `count_tags_in_text` from `src/utils.py`: `len(TAG_PATTERN.findall(s))`. -/
def count_tags_in_text (s : List Char) : Nat := (rawScan s 0).length

/-- The character class kept by `sanitize_username` (`[A-Za-z0-9._-]`). -/
def allowedChar (c : Char) : Bool :=
  ('A' ≤ c && c ≤ 'Z') || ('a' ≤ c && c ≤ 'z') || ('0' ≤ c && c ≤ '9')
    || c == '.' || c == '_' || c == '-'

/-- The fixed fallback user name. -/
def defaultAnnotator : List Char := ['a', 'n', 'n', 'o', 't', 'a', 't', 'o', 'r']

/-- Function `sanitize_username` from `src/utils.py`: strip, replace every character
outside the allowed class with an underscore, and fall back to the default
name when the result is empty. -/
def sanitize_username (s : List Char) : List Char :=
  let safe := (pyStrip s).map (fun c => if allowedChar c then c else '_')
  if safe = [] then defaultAnnotator else safe

/-- Modelled from the spec: a complete non-nested bracket span at offset
`i` with interior `mid`. -/
def SpanWitness (u : List Char) (i : Nat) (mid : List Char) : Prop :=
  ∃ pre post, u = pre ++ '[' :: (mid ++ ']' :: post) ∧ pre.length = i ∧
    mid ≠ [] ∧ ∀ c ∈ mid, nonBracket c = true

/-- Modelled from the spec: `u` has a complete non-nested bracket span
occupying exactly the offsets `[i, j)`. -/
def IsSpan (u : List Char) (i j : Nat) : Prop :=
  ∃ mid, SpanWitness u i mid ∧ j = i + mid.length + 2

/-- Executable test for a span starting at offset `i`. -/
def spanStartB (s : List Char) (i : Nat) : Bool :=
  match s.drop i with
  | [] => false
  | c :: rest =>
    c == '[' && !(rest.takeWhile nonBracket).isEmpty &&
      ((rest.drop (rest.takeWhile nonBracket).length).head? == some ']')

/-- Modelled from the spec: the number of complete non-nested bracket
pairs contained in `s`. -/
def numSpans (s : List Char) : Nat :=
  ((List.range s.length).filter (spanStartB s)).length

/-- The `content` carried by a segment (the `"text"` value of the dict). -/
def segContent : Segment → List Char
  | Segment.text c => c
  | Segment.tag c _ => c

/-- Concatenation of the contents of all segments, in order. -/
def concatStream (l : List Segment) : List Char := (l.map segContent).flatten

/-- The portion of the source text a segment stands for: a text chunk
stands for itself, a tag chip for the bracketed source span of the tag
with its index, located through `extract_tags`. -/
def segOriginal (s : List Char) : Segment → List Char
  | Segment.text c => c
  | Segment.tag _ k =>
    match (extract_tags s)[k - 1]? with
    | some t => (s.drop t.start).take (t.stop - t.start)
    | none => []

/-- The tag data carried by a segment, if it is a tag chip. -/
def segTagInfo : Segment → Option (List Char × Nat)
  | Segment.text _ => none
  | Segment.tag c k => some (c, k)

/-- A file system: a partial map from paths to file contents. -/
def FS : Type := String → Option String

/-- Create or overwrite a file. -/
def fsSet (fs : FS) (p : String) (c : String) : FS :=
  fun q => if q = p then some c else fs q

/-- Delete a file. -/
def fsRemove (fs : FS) (p : String) : FS :=
  fun q => if q = p then none else fs q

/-- Function `json_path_for` from `src/utils.py`:
`os.path.join(user_dir, model, f"T{row_index+1}.json")`. -/
def json_path_for (user_dir model : String) (row_index : Nat) : String :=
  user_dir ++ "/" ++ model ++ "/T" ++ toString (row_index + 1) ++ ".json"

/-- The directory part of a path: everything up to the last slash. -/
def dirOf (p : String) : String :=
  String.mk ((p.data.reverse.dropWhile (fun c => c != '/')).reverse)

/-- Result of a save attempt: the final file system, with an injected
fault surfacing as `failed` (`save_annotations` has no handler, so every
failure propagates to the caller). -/
inductive SaveResult where
  | ok (fs : FS)
  | failed (fs : FS)

/-- Fault injection for `save_annotations`: fail while writing the
temporary file (leaving arbitrary leftover content there), while syncing
it, or during the rename (which, being atomic, changes nothing when it
fails). -/
inductive SaveFault where
  | duringWrite (leftover : String)
  | duringSync
  | duringRename

/-- Function `save_annotations` from `src/utils.py`, over the file-system model:
`record` is the serialized normalized payload
(`json.dump(_to_jsonable(payload), ...)`); it is written to
`path + ".tmp"`, fsynced, and atomically renamed onto `path`. -/
def save_annotations (user_dir model : String) (row_index : Nat)
    (record : String) (fs : FS) (fault : Option SaveFault) : SaveResult :=
  let path := json_path_for user_dir model row_index
  let tmp := path ++ ".tmp"
  match fault with
  | some (SaveFault.duringWrite leftover) => SaveResult.failed (fsSet fs tmp leftover)
  | some SaveFault.duringSync => SaveResult.failed (fsSet fs tmp record)
  | some SaveFault.duringRename => SaveResult.failed (fsSet fs tmp record)
  | none => SaveResult.ok (fsSet (fsRemove (fsSet fs tmp record) tmp) path record)

/-- Function `load_existing_annotations` from `src/utils.py`, over the file-system
model.  `decode` stands for `json.load` (an arbitrary parser, `none`
being a `JSONDecodeError`); `readFault` injects an arbitrary I/O failure
while opening or reading, which the bare `except Exception` swallows;
`renameFault` makes the quarantine rename fail, which the inner
`try/except pass` swallows.  Every control path returns a value, so the
model is total just as every path of the Python function returns. -/
def load_existing_annotations {D : Type} (decode : String → Option D)
    (user_dir model : String) (row_index : Nat) (fs : FS)
    (readFault renameFault : Bool) : Option D × FS :=
  let path := json_path_for user_dir model row_index
  match fs path with
  | none => (none, fs)
  | some content =>
    if content.length = 0 then (none, fs)
    else if readFault then (none, fs)
    else
      match decode content with
      | some v => (some v, fs)
      | none =>
        if renameFault then (none, fs)
        else (none, fsSet (fsRemove fs path) (path ++ ".corrupt") content)

/-- One decision item of the saved record:
`{"tag_index": ..., "tag_text": ..., "decision": ...}`. -/
structure Item where
  tag_index : Nat
  tag_text : List Char
  decision : Option String
deriving DecidableEq, Repr

/-- The full record assembled by `build_payload_inline` in `src/utils.py`.
`row_index` and `transcript_no` are the `_safe_int` results; `title`,
`stance` the row lookups; `saved_at` the timestamp string. -/
structure Payload where
  annotator : String
  model : String
  row_index : Option Int
  transcript_no : Option Int
  title : Option String
  stance : Option String
  items : List Item
  notes : String
  saved_at : String
deriving DecidableEq, Repr

/-- The `items` loop of `build_payload_inline`: one item per tag, in tag
order; the decision is the submitted form's value under the key
`dec_tag_{idx}` (`form_data.get` yields `None` when the key is absent). -/
def build_payload_items (tags : List Tag)
    (form_data : List (String × String)) : List Item :=
  tags.map fun t =>
    { tag_index := t.idx, tag_text := t.text,
      decision := form_data.lookup ("dec_tag_" ++ toString t.idx) }

/-- Function `build_payload_inline` from `src/utils.py`. -/
def build_payload_inline (username model : String)
    (row_index transcript_no : Option Int) (title stance : Option String)
    (tags : List Tag) (form_data : List (String × String)) (notes : String)
    (saved_at : String) : Payload :=
  { annotator := username, model := model, row_index := row_index,
    transcript_no := transcript_no, title := title, stance := stance,
    items := build_payload_items tags form_data, notes := notes,
    saved_at := saved_at }

/-- Python `x or y` for optional strings: an absent value (`None`) and
the empty string are both falsy. -/
def pyOr (a b : Option String) : Option String :=
  match a with
  | some s => if s = "" then b else some s
  | none => b

/-- A file operation performed by the handler, with the model key and
row index that determine the addressed path. -/
inductive FileOp where
  | load (model : String) (row : Nat)
  | save (model : String) (row : Nat)
deriving DecidableEq, Repr

/-- Outcome of the `annotate` handler: an unhandled exception before any
file operation (`error`), or a normal response together with the file
operations performed. -/
inductive AnnotateOutcome where
  | error
  | page (ops : List FileOp)
deriving DecidableEq, Repr

/-- The model key the handler ends up using (`src/app.py` lines 95–96):
`model = args.get("model") or form.get("model") or (MODELS[0] if MODELS
else None)`, then `model = model if model in MODELS else (MODELS[0] if
MODELS else None)`. -/
def resolve_model (models : List String)
    (arg_model form_model : Option String) : Option String :=
  match pyOr (pyOr arg_model form_model) models.head? with
  | some s => if s ∈ models then some s else models.head?
  | none => models.head?

/-- The `annotate` handler from `src/app.py` (lines 90–150), reduced to
model-key resolution, the row bounds, and the file operations performed:
`DF.iloc[row_idx]` raises `IndexError` for an out-of-range row before any
file access; with an empty model list, `os.path.join(user_dir, None, ...)`
inside `json_path_for` raises `TypeError`, also before any file access.
A POST saves the assembled payload, a GET loads the existing one. -/
def annotate (df_len : Nat) (models : List String)
    (arg_model form_model : Option String) (row_idx : Nat)
    (is_post : Bool) : AnnotateOutcome :=
  if df_len ≤ row_idx then AnnotateOutcome.error
  else
    match resolve_model models arg_model form_model with
    | none => AnnotateOutcome.error
    | some mk =>
      if is_post then AnnotateOutcome.page [FileOp.save mk row_idx]
      else AnnotateOutcome.page [FileOp.load mk row_idx]

/-- The model key addressed by a file operation. -/
def FileOp.model : FileOp → String
  | FileOp.load m _ => m
  | FileOp.save m _ => m

/-- The row index addressed by a file operation. -/
def FileOp.row : FileOp → Nat
  | FileOp.load _ r => r
  | FileOp.save _ r => r

/-- Lookup `df_row.get(model)` where `model` may be `None`. -/
def rowGet (row : String → Option String) : Option String → Option String
  | some k => row k
  | none => none

/-- The tagged-text resolution expression of `src/app.py`:
`df_row.get(model) or df_row.get("gpt4o_layer2_annotations") or
df_row.get("English Translation") or ""`. -/
def resolve_tagged_text (row : String → Option String)
    (model : Option String) : String :=
  (pyOr (pyOr (rowGet row model) (row "gpt4o_layer2_annotations"))
    (row "English Translation")).getD ""

/-! ### Theorems -/

/-! ### Basic list lemmas -/

theorem takeWhile_all_append {p : Char → Bool} {mid : List Char} (x : Char)
    (rest : List Char) (hall : ∀ c ∈ mid, p c = true) (hx : p x = false) :
    (mid ++ x :: rest).takeWhile p = mid := by
  induction mid with
  | nil => simp [List.takeWhile, hx]
  | cons c cs ih =>
    have hc : p c = true := hall c (by simp)
    simp only [List.cons_append, List.takeWhile_cons, hc, if_true]
    simp [ih fun d hd => hall d (by simp [hd])]

theorem drop_all_append {mid : List Char} (x : Char) (rest : List Char) :
    (mid ++ x :: rest).drop mid.length = x :: rest := by
  simp [List.drop_left mid (x :: rest)]

theorem dropWhile_nil_all {p : Char → Bool} {l : List Char}
    (h : l.dropWhile p = []) : ∀ c ∈ l, p c = true := by
  induction l with
  | nil => simp
  | cons c cs ih =>
    rw [List.dropWhile_cons] at h
    by_cases hc : p c = true
    · intro d hd
      rcases List.mem_cons.1 hd with rfl | hd'
      · exact hc
      · exact ih (by simpa [hc] using h) d hd'
    · simp [hc] at h

theorem pyStrip_nil_all {s : List Char} (h : pyStrip s = []) :
    ∀ c ∈ s, pyIsSpace c = true := by
  unfold pyStrip at h
  rw [List.reverse_eq_nil_iff] at h
  have h2 := dropWhile_nil_all h
  intro c hc
  have hsplit := List.takeWhile_append_dropWhile pyIsSpace s
  rw [← hsplit] at hc
  rcases List.mem_append.1 hc with hc1 | hc2
  · exact List.mem_takeWhile_imp hc1
  · exact h2 c (List.mem_reverse.2 hc2)

theorem drop_takeWhile_length (p : Char → Bool) : ∀ l : List Char,
    l.drop (l.takeWhile p).length = l.dropWhile p := by
  intro l
  induction l with
  | nil => rfl
  | cons c cs ih =>
    by_cases hc : p c
    · simpa [List.takeWhile_cons, List.dropWhile_cons, hc] using ih
    · simp [List.takeWhile_cons, List.dropWhile_cons, hc]

/-! ### Facts about spans -/

theorem SpanWitness.length_le {u : List Char} {i : Nat} {mid : List Char}
    (h : SpanWitness u i mid) : i + mid.length + 2 ≤ u.length := by
  obtain ⟨pre, post, rfl, hlen, -, -⟩ := h
  simp [List.length_append, hlen]
  omega

theorem SpanWitness.open_bracket {u : List Char} {i : Nat} {mid : List Char}
    (h : SpanWitness u i mid) : u[i]? = some '[' := by
  obtain ⟨pre, post, rfl, hlen, -, -⟩ := h
  rw [← hlen, List.getElem?_append_right (le_refl _)]
  simp

theorem spanWitness_append_iff (v w : List Char) (k : Nat) (mid : List Char) :
    SpanWitness (v ++ w) (v.length + k) mid ↔ SpanWitness w k mid := by
  constructor
  · rintro ⟨pre, post, heq, hlen, hne, hall⟩
    have hvlen : v.length ≤ pre.length := by omega
    have hv : v = pre.take v.length := by
      have h1 := congrArg (List.take v.length) heq
      rwa [List.take_left, List.take_append_of_le_length hvlen] at h1
    have hpre : pre = v ++ pre.drop v.length := by
      conv_lhs => rw [← List.take_append_drop v.length pre]
      rw [← hv]
    rw [hpre, List.append_assoc] at heq
    have hw := List.append_cancel_left heq
    refine ⟨pre.drop v.length, post, hw, ?_, hne, hall⟩
    simp [List.length_drop]
    omega
  · rintro ⟨pre, post, rfl, hlen, hne, hall⟩
    exact ⟨v ++ pre, post, by simp, by simp [hlen], hne, hall⟩

theorem spanWitness_cons_iff (c : Char) (w : List Char) (k : Nat) (mid : List Char) :
    SpanWitness (c :: w) (k + 1) mid ↔ SpanWitness w k mid := by
  have h := spanWitness_append_iff [c] w k mid
  simpa [Nat.add_comm] using h

theorem spanWitness_zero {c : Char} {rest mid : List Char} :
    SpanWitness (c :: rest) 0 mid ↔
      c = '[' ∧ (∃ post, rest = mid ++ ']' :: post) ∧ mid ≠ [] ∧
        ∀ d ∈ mid, nonBracket d = true := by
  constructor
  · rintro ⟨pre, post, heq, hlen, hne, hall⟩
    have hpre : pre = [] := List.length_eq_zero.1 hlen
    subst hpre
    simp only [List.nil_append, List.cons.injEq] at heq
    exact ⟨heq.1, ⟨post, heq.2⟩, hne, hall⟩
  · rintro ⟨rfl, ⟨post, rfl⟩, hne, hall⟩
    exact ⟨[], post, rfl, rfl, hne, hall⟩

theorem spanWitness_zero_unique {c : Char} {rest mid : List Char}
    (h : SpanWitness (c :: rest) 0 mid) : mid = rest.takeWhile nonBracket := by
  rw [spanWitness_zero] at h
  obtain ⟨-, ⟨post, rfl⟩, -, hall⟩ := h
  exact (takeWhile_all_append ']' post hall (by decide)).symm

theorem spanWitness_zero_cond {c : Char} {rest : List Char} :
    (∃ mid, SpanWitness (c :: rest) 0 mid) ↔
      (c = '[' ∧ rest.takeWhile nonBracket ≠ [] ∧
        (rest.drop (rest.takeWhile nonBracket).length).head? = some ']') := by
  constructor
  · rintro ⟨mid, h⟩
    rw [spanWitness_zero] at h
    obtain ⟨rfl, ⟨post, rfl⟩, hne, hall⟩ := h
    have htw : (mid ++ ']' :: post).takeWhile nonBracket = mid :=
      takeWhile_all_append ']' post hall (by decide)
    refine ⟨rfl, ?_, ?_⟩
    · rw [htw]; exact hne
    · rw [htw, drop_all_append]; rfl
  · rintro ⟨rfl, hne, hhead⟩
    rw [drop_takeWhile_length] at hhead
    match hX : rest.dropWhile nonBracket with
    | [] => rw [hX] at hhead; simp at hhead
    | x :: t =>
      rw [hX] at hhead
      simp only [List.head?_cons, Option.some.injEq] at hhead
      subst hhead
      refine ⟨rest.takeWhile nonBracket, spanWitness_zero.2 ⟨rfl, ⟨t, ?_⟩, hne, ?_⟩⟩
      · conv_lhs => rw [← List.takeWhile_append_dropWhile nonBracket rest]
        rw [hX]
      · intro d hd; exact List.mem_takeWhile_imp hd

theorem spanWitness_pos_cases {I tail mid : List Char} {p : Nat}
    (hI : ∀ d ∈ I, nonBracket d = true)
    (h : SpanWitness ('[' :: (I ++ ']' :: tail)) p mid) :
    p = 0 ∨ I.length + 2 ≤ p := by
  by_cases hp0 : p = 0
  · exact Or.inl hp0
  right
  by_contra hplt
  push_neg at hplt
  have hopen := h.open_bracket
  obtain ⟨q, rfl⟩ : ∃ q, p = q + 1 := ⟨p - 1, by omega⟩
  rw [List.getElem?_cons_succ] at hopen
  by_cases hq : q < I.length
  · rw [List.getElem?_append_left hq] at hopen
    have hmem : '[' ∈ I := List.mem_iff_getElem?.2 ⟨q, hopen⟩
    have := hI '[' hmem
    simp [nonBracket] at this
  · have hq' : q = I.length := by omega
    subst hq'
    rw [List.getElem?_append_right (le_refl _)] at hopen
    simp at hopen

/-! ### The scanner finds exactly the spans, in order -/

theorem rawScanAux_irrel : ∀ {n m : Nat} {u : List Char} (pos : Nat),
    u.length ≤ n → u.length ≤ m → rawScanAux n u pos = rawScanAux m u pos := by
  intro n
  induction n with
  | zero =>
    intro m u pos hn _
    have hu : u = [] := List.length_eq_zero.1 (Nat.le_zero.1 hn)
    subst hu
    cases m <;> rfl
  | succ n ih =>
    intro m u pos hn hm
    cases u with
    | nil => cases m <;> rfl
    | cons c rest =>
      cases m with
      | zero => simp at hm
      | succ m' =>
        simp only [rawScanAux]
        by_cases h : c = '[' ∧ rest.takeWhile nonBracket ≠ [] ∧
            (rest.drop (rest.takeWhile nonBracket).length).head? = some ']'
        · rw [if_pos h, if_pos h]
          congr 1
          refine ih _ ?_ ?_ <;> simp only [List.length_drop, List.length_cons] at * <;> omega
        · rw [if_neg h, if_neg h]
          refine ih _ ?_ ?_ <;> simp only [List.length_cons] at * <;> omega

theorem rawScan_nil (pos : Nat) : rawScan [] pos = [] := rfl

theorem rawScan_cons (c : Char) (rest : List Char) (pos : Nat) :
    rawScan (c :: rest) pos =
      if c = '[' ∧ rest.takeWhile nonBracket ≠ [] ∧
          (rest.drop (rest.takeWhile nonBracket).length).head? = some ']' then
        (pos, rest.takeWhile nonBracket) ::
          rawScan (rest.drop ((rest.takeWhile nonBracket).length + 1))
            (pos + (rest.takeWhile nonBracket).length + 2)
      else
        rawScan rest (pos + 1) := by
  show rawScanAux (rest.length + 1) (c :: rest) pos = _
  simp only [rawScanAux]
  by_cases h : c = '[' ∧ rest.takeWhile nonBracket ≠ [] ∧
      (rest.drop (rest.takeWhile nonBracket).length).head? = some ']'
  · rw [if_pos h, if_pos h]
    congr 1
    exact rawScanAux_irrel _ (by simp [List.length_drop]) (le_refl _)
  · rw [if_neg h, if_neg h]
    rfl

theorem rawScan_sound_aux : ∀ (n : Nat) (u : List Char), u.length ≤ n →
    ∀ (pos p : Nat) (mid : List Char), (p, mid) ∈ rawScan u pos →
      pos ≤ p ∧ SpanWitness u (p - pos) mid := by
  intro n
  induction n with
  | zero =>
    intro u hu pos p mid hmem
    have : u = [] := List.length_eq_zero.1 (Nat.le_zero.1 hu)
    subst this
    simp [rawScan_nil] at hmem
  | succ n ih =>
    intro u hu pos p mid hmem
    cases u with
    | nil => simp [rawScan_nil] at hmem
    | cons c rest =>
      rw [rawScan_cons] at hmem
      by_cases hcond : c = '[' ∧ rest.takeWhile nonBracket ≠ [] ∧
          (rest.drop (rest.takeWhile nonBracket).length).head? = some ']'
      · rw [if_pos hcond] at hmem
        obtain ⟨hc, hne, hhead⟩ := hcond
        subst hc
        have hdw := drop_takeWhile_length nonBracket rest
        have hdropI : rest.drop (rest.takeWhile nonBracket).length =
            ']' :: rest.drop ((rest.takeWhile nonBracket).length + 1) := by
          cases hX : rest.drop (rest.takeWhile nonBracket).length with
          | nil => rw [hX] at hhead; simp at hhead
          | cons x t =>
            rw [hX] at hhead
            simp only [List.head?_cons, Option.some.injEq] at hhead
            subst hhead
            have ht : t = rest.drop ((rest.takeWhile nonBracket).length + 1) := by
              have := congrArg (List.drop 1) hX
              rw [List.drop_drop, List.drop_one, List.tail_cons] at this
              exact this.symm
            rw [ht]
        have hrest : rest = rest.takeWhile nonBracket ++
            ']' :: rest.drop ((rest.takeWhile nonBracket).length + 1) := by
          conv_lhs => rw [← List.takeWhile_append_dropWhile nonBracket rest]
          rw [← hdw, hdropI]
        rcases List.mem_cons.1 hmem with heq | hmem'
        · obtain ⟨rfl, rfl⟩ : p = pos ∧ mid = rest.takeWhile nonBracket := by
            simpa using heq
          refine ⟨le_refl _, ?_⟩
          rw [Nat.sub_self]
          exact spanWitness_zero.2
            ⟨rfl, ⟨rest.drop ((rest.takeWhile nonBracket).length + 1), hrest⟩,
              hne, fun d hd => List.mem_takeWhile_imp hd⟩
        · have hlen : (rest.drop ((rest.takeWhile nonBracket).length + 1)).length ≤ n := by
            simp only [List.length_cons] at hu
            simp only [List.length_drop]
            omega
          obtain ⟨hple, hsw⟩ := ih _ hlen _ _ _ hmem'
          refine ⟨by omega, ?_⟩
          have hu_eq : '[' :: rest =
              ('[' :: (rest.takeWhile nonBracket ++ [']'])) ++
                rest.drop ((rest.takeWhile nonBracket).length + 1) := by
            conv_lhs => rw [hrest]
            simp
          rw [hu_eq]
          have hlenv : ('[' :: (rest.takeWhile nonBracket ++ [']'])).length =
              (rest.takeWhile nonBracket).length + 2 := by
            simp
          have harith : p - pos =
              ('[' :: (rest.takeWhile nonBracket ++ [']'])).length +
                (p - (pos + (rest.takeWhile nonBracket).length + 2)) := by
            rw [hlenv]
            omega
          rw [harith]
          exact (spanWitness_append_iff _ _ _ _).2 hsw
      · rw [if_neg hcond] at hmem
        have hlen : rest.length ≤ n := by
          simp only [List.length_cons] at hu; omega
        obtain ⟨hple, hsw⟩ := ih rest hlen (pos + 1) p mid hmem
        refine ⟨by omega, ?_⟩
        have harith : p - pos = (p - (pos + 1)) + 1 := by omega
        rw [harith]
        exact (spanWitness_cons_iff _ _ _ _).2 hsw

theorem rawScan_sound {u : List Char} {pos p : Nat} {mid : List Char}
    (h : (p, mid) ∈ rawScan u pos) : pos ≤ p ∧ SpanWitness u (p - pos) mid :=
  rawScan_sound_aux u.length u (le_refl _) pos p mid h

theorem rawScan_complete_aux : ∀ (n : Nat) (u : List Char), u.length ≤ n →
    ∀ (pos i : Nat) (mid : List Char), SpanWitness u i mid →
      (pos + i, mid) ∈ rawScan u pos := by
  intro n
  induction n with
  | zero =>
    intro u hu pos i mid hsw
    have := hsw.length_le
    omega
  | succ n ih =>
    intro u hu pos i mid hsw
    cases u with
    | nil =>
      have := hsw.length_le
      simp at this
    | cons c rest =>
      rw [rawScan_cons]
      by_cases hcond : c = '[' ∧ rest.takeWhile nonBracket ≠ [] ∧
          (rest.drop (rest.takeWhile nonBracket).length).head? = some ']'
      · rw [if_pos hcond]
        obtain ⟨hc, hne, hhead⟩ := hcond
        subst hc
        have hdw := drop_takeWhile_length nonBracket rest
        have hdropI : rest.drop (rest.takeWhile nonBracket).length =
            ']' :: rest.drop ((rest.takeWhile nonBracket).length + 1) := by
          cases hX : rest.drop (rest.takeWhile nonBracket).length with
          | nil => rw [hX] at hhead; simp at hhead
          | cons x t =>
            rw [hX] at hhead
            simp only [List.head?_cons, Option.some.injEq] at hhead
            subst hhead
            have ht : t = rest.drop ((rest.takeWhile nonBracket).length + 1) := by
              have := congrArg (List.drop 1) hX
              rw [List.drop_drop, List.drop_one, List.tail_cons] at this
              exact this.symm
            rw [ht]
        have hrest : rest = rest.takeWhile nonBracket ++
            ']' :: rest.drop ((rest.takeWhile nonBracket).length + 1) := by
          conv_lhs => rw [← List.takeWhile_append_dropWhile nonBracket rest]
          rw [← hdw, hdropI]
        have hform : SpanWitness
            ('[' :: (rest.takeWhile nonBracket ++
              ']' :: rest.drop ((rest.takeWhile nonBracket).length + 1))) i mid := by
          rw [← hrest]; exact hsw
        rcases spanWitness_pos_cases (fun d hd => List.mem_takeWhile_imp hd) hform with
          h0 | hge
        · subst h0
          have hmid : mid = rest.takeWhile nonBracket :=
            spanWitness_zero_unique hsw
          subst hmid
          simp
        · apply List.mem_cons_of_mem
          have hu_eq : ('[' : Char) :: rest =
              ('[' :: (rest.takeWhile nonBracket ++ [']'])) ++
                rest.drop ((rest.takeWhile nonBracket).length + 1) := by
            conv_lhs => rw [hrest]
            simp
          rw [hu_eq] at hsw
          have hlenv : ('[' :: (rest.takeWhile nonBracket ++ [']'])).length =
              (rest.takeWhile nonBracket).length + 2 := by
            simp
          have harith : i = ('[' :: (rest.takeWhile nonBracket ++ [']'])).length +
              (i - ((rest.takeWhile nonBracket).length + 2)) := by
            rw [hlenv]
            omega
          rw [harith] at hsw
          have hsw' := (spanWitness_append_iff _ _ _ _).1 hsw
          have hlen : (rest.drop ((rest.takeWhile nonBracket).length + 1)).length ≤ n := by
            simp only [List.length_cons] at hu
            simp only [List.length_drop]
            omega
          have hmem := ih _ hlen (pos + (rest.takeWhile nonBracket).length + 2) _ _ hsw'
          have harith2 : pos + (rest.takeWhile nonBracket).length + 2 +
              (i - ((rest.takeWhile nonBracket).length + 2)) = pos + i := by omega
          rwa [harith2] at hmem
      · rw [if_neg hcond]
        have hi : i ≠ 0 := by
          intro h0
          subst h0
          exact hcond (spanWitness_zero_cond.1 ⟨mid, hsw⟩)
        obtain ⟨j, rfl⟩ : ∃ j, i = j + 1 := ⟨i - 1, by omega⟩
        have hsw' := (spanWitness_cons_iff c rest j mid).1 hsw
        have hlen : rest.length ≤ n := by
          simp only [List.length_cons] at hu; omega
        have hmem := ih rest hlen (pos + 1) j mid hsw'
        have harith : pos + 1 + j = pos + (j + 1) := by omega
        rwa [harith] at hmem

theorem rawScan_complete {u : List Char} {pos i : Nat} {mid : List Char}
    (h : SpanWitness u i mid) : (pos + i, mid) ∈ rawScan u pos :=
  rawScan_complete_aux u.length u (le_refl _) pos i mid h

theorem mem_rawScan_iff {s : List Char} {p : Nat} {mid : List Char} :
    (p, mid) ∈ rawScan s 0 ↔ SpanWitness s p mid := by
  constructor
  · intro h
    have := (rawScan_sound h).2
    simpa using this
  · intro h
    have := @rawScan_complete s 0 p mid h
    simpa using this

theorem rawScan_pairwise_aux : ∀ (n : Nat) (u : List Char), u.length ≤ n → ∀ pos,
    (rawScan u pos).Pairwise (fun a b => a.1 + a.2.length + 2 ≤ b.1) := by
  intro n
  induction n with
  | zero =>
    intro u hu pos
    have : u = [] := List.length_eq_zero.1 (Nat.le_zero.1 hu)
    subst this
    simp [rawScan_nil]
  | succ n ih =>
    intro u hu pos
    cases u with
    | nil => simp [rawScan_nil]
    | cons c rest =>
      rw [rawScan_cons]
      by_cases hcond : c = '[' ∧ rest.takeWhile nonBracket ≠ [] ∧
          (rest.drop (rest.takeWhile nonBracket).length).head? = some ']'
      · rw [if_pos hcond]
        refine List.Pairwise.cons ?_ (ih _ ?_ _)
        · rintro ⟨q, mid'⟩ hb
          have := (rawScan_sound hb).1
          simpa using by omega
        · simp only [List.length_cons] at hu
          simp only [List.length_drop]
          omega
      · rw [if_neg hcond]
        apply ih
        simp only [List.length_cons] at hu
        omega

theorem rawScan_pairwise (u : List Char) (pos : Nat) :
    (rawScan u pos).Pairwise (fun a b => a.1 + a.2.length + 2 ≤ b.1) :=
  rawScan_pairwise_aux u.length u (le_refl _) pos

theorem spanWitness_drop_iff {s : List Char} {i : Nat} (hi : i ≤ s.length)
    (k : Nat) (mid : List Char) :
    SpanWitness s (i + k) mid ↔ SpanWitness (s.drop i) k mid := by
  have h := spanWitness_append_iff (s.take i) (s.drop i) k mid
  rw [List.take_append_drop] at h
  have hlen : (s.take i).length = i := by
    rw [List.length_take]
    omega
  rwa [hlen] at h

theorem spanStartB_iff {s : List Char} {i : Nat} :
    spanStartB s i = true ↔ ∃ mid, SpanWitness s i mid := by
  constructor
  · intro h
    unfold spanStartB at h
    cases hX : s.drop i with
    | nil => rw [hX] at h; simp at h
    | cons c rest =>
      rw [hX] at h
      simp only [Bool.and_eq_true, beq_iff_eq, Bool.not_eq_true',
        List.isEmpty_eq_false] at h
      obtain ⟨⟨hc, hne⟩, hhead⟩ := h
      subst hc
      have hi : i ≤ s.length := by
        by_contra hgt
        push_neg at hgt
        rw [List.drop_eq_nil_of_le (le_of_lt hgt)] at hX
        cases hX
      obtain ⟨mid, hmid⟩ : ∃ mid, SpanWitness (s.drop i) 0 mid := by
        rw [hX]
        exact spanWitness_zero_cond.2 ⟨rfl, hne, hhead⟩
      refine ⟨mid, ?_⟩
      have := (spanWitness_drop_iff hi 0 mid).2 hmid
      simpa using this
  · rintro ⟨mid, h⟩
    have hbound := h.length_le
    have hi : i ≤ s.length := by omega
    have h0 : SpanWitness (s.drop i) 0 mid := by
      rw [← spanWitness_drop_iff hi 0 mid]
      simpa using h
    obtain ⟨pre, post, heq, hlen, hne, hall⟩ := h0
    have hpre : pre = [] := List.length_eq_zero.1 hlen
    subst hpre
    rw [List.nil_append] at heq
    unfold spanStartB
    rw [heq]
    have htw : (mid ++ ']' :: post).takeWhile nonBracket = mid :=
      takeWhile_all_append ']' post hall (by decide)
    simp [htw, hne, drop_all_append]

/-! ### Numbering the matches -/

theorem numberTags_length (n : Nat) (l : List (Nat × List Char)) :
    (numberTags n l).length = l.length := by
  induction l generalizing n with
  | nil => rfl
  | cons hd tl ih =>
    obtain ⟨st, mid⟩ := hd
    simp [numberTags, ih]

theorem numberTags_getElem? (n : Nat) (l : List (Nat × List Char)) (k : Nat) :
    (numberTags n l)[k]? = (l[k]?).map
      (fun pm => { idx := n + k, text := pyStrip pm.2, start := pm.1,
                   stop := pm.1 + pm.2.length + 2 }) := by
  induction l generalizing n k with
  | nil => simp [numberTags]
  | cons hd tl ih =>
    obtain ⟨st, mid⟩ := hd
    cases k with
    | zero => simp [numberTags]
    | succ k' =>
      simp only [numberTags, List.getElem?_cons_succ]
      rw [ih (n + 1) k']
      have harith : n + 1 + k' = n + (k' + 1) := by omega
      rw [harith]

theorem numberTags_mem {n : Nat} {l : List (Nat × List Char)} {t : Tag}
    (h : t ∈ numberTags n l) :
    ∃ pm ∈ l, t.start = pm.1 ∧ t.stop = pm.1 + pm.2.length + 2 ∧
      t.text = pyStrip pm.2 := by
  induction l generalizing n with
  | nil => simp [numberTags] at h
  | cons hd tl ih =>
    obtain ⟨st, mid⟩ := hd
    rcases List.mem_cons.1 h with rfl | h'
    · exact ⟨(st, mid), by simp, rfl, rfl, rfl⟩
    · obtain ⟨pm, hpm, h1, h2, h3⟩ := ih h'
      exact ⟨pm, by simp [hpm], h1, h2, h3⟩

theorem numberTags_pairwise {l : List (Nat × List Char)} {n : Nat}
    (h : l.Pairwise (fun a b => a.1 + a.2.length + 2 ≤ b.1)) :
    (numberTags n l).Pairwise (fun a b => a.stop ≤ b.start) := by
  induction l generalizing n with
  | nil => simp [numberTags]
  | cons hd tl ih =>
    obtain ⟨st, mid⟩ := hd
    obtain ⟨hh, ht⟩ := List.pairwise_cons.1 h
    refine List.pairwise_cons.2 ⟨?_, ih ht⟩
    intro b hb
    obtain ⟨pm, hpm, h1, -, -⟩ := numberTags_mem hb
    have h2 : st + mid.length + 2 ≤ pm.1 := hh pm hpm
    show st + mid.length + 2 ≤ b.start
    omega

/-! ### `extract_tags` characterized by spans -/

theorem rawScan_nil_of_strip {s : List Char} (h : pyStrip s = []) :
    rawScan s 0 = [] := by
  cases hX : rawScan s 0 with
  | nil => rfl
  | cons a t =>
    obtain ⟨p, mid⟩ := a
    have hmem : (p, mid) ∈ rawScan s 0 := by
      rw [hX]; exact List.mem_cons_self _ _
    have hsw := mem_rawScan_iff.1 hmem
    have hopen := hsw.open_bracket
    have hmem2 : '[' ∈ s := List.mem_iff_getElem?.2 ⟨p, hopen⟩
    have := pyStrip_nil_all h '[' hmem2
    simp [pyIsSpace] at this

theorem extract_tags_eq (s : List Char) :
    extract_tags s = numberTags 1 (rawScan s 0) := by
  by_cases h : pyStrip s = []
  · rw [extract_tags, if_pos h, rawScan_nil_of_strip h]
    rfl
  · rw [extract_tags, if_neg h]

theorem extract_tags_getElem? (s : List Char) (k : Nat) :
    (extract_tags s)[k]? = ((rawScan s 0)[k]?).map
      (fun pm => { idx := k + 1, text := pyStrip pm.2, start := pm.1,
                   stop := pm.1 + pm.2.length + 2 }) := by
  rw [extract_tags_eq, numberTags_getElem?]
  have harith : 1 + k = k + 1 := by omega
  rw [harith]

theorem extract_tags_length (s : List Char) :
    (extract_tags s).length = (rawScan s 0).length := by
  rw [extract_tags_eq, numberTags_length]

theorem extract_tags_idx {s : List Char} {k : Nat} {t : Tag}
    (h : (extract_tags s)[k]? = some t) : t.idx = k + 1 := by
  rw [extract_tags_getElem?] at h
  cases hX : (rawScan s 0)[k]? with
  | none => rw [hX] at h; cases h
  | some pm =>
    rw [hX] at h
    simp only [Option.map_some', Option.some.injEq] at h
    rw [← h]

theorem mem_extract_tags_span {s : List Char} {t : Tag}
    (h : t ∈ extract_tags s) :
    ∃ mid, SpanWitness s t.start mid ∧ t.stop = t.start + mid.length + 2 ∧
      t.text = pyStrip mid := by
  rw [extract_tags_eq] at h
  obtain ⟨⟨p, mid⟩, hpm, h1, h2, h3⟩ := numberTags_mem h
  refine ⟨mid, ?_, ?_, h3⟩
  · rw [h1]
    exact mem_rawScan_iff.1 hpm
  · rw [h2, h1]

theorem span_mem_extract_tags {s : List Char} {i : Nat} {mid : List Char}
    (h : SpanWitness s i mid) :
    ∃ t ∈ extract_tags s, t.start = i ∧ t.stop = i + mid.length + 2 ∧
      t.text = pyStrip mid := by
  have hmem := mem_rawScan_iff.2 h
  obtain ⟨k, hk⟩ := List.mem_iff_getElem?.1 hmem
  refine ⟨{ idx := k + 1, text := pyStrip mid, start := i,
            stop := i + mid.length + 2 }, ?_, rfl, rfl, rfl⟩
  apply List.mem_iff_getElem?.2
  refine ⟨k, ?_⟩
  rw [extract_tags_getElem?, hk]
  rfl

theorem extract_tags_pairwise (s : List Char) :
    (extract_tags s).Pairwise (fun a b => a.stop ≤ b.start) := by
  rw [extract_tags_eq]
  exact numberTags_pairwise (rawScan_pairwise s 0)

theorem extract_tags_lookup {s : List Char} {t : Tag} (h : t ∈ extract_tags s) :
    (extract_tags s)[t.idx - 1]? = some t := by
  obtain ⟨k, hk⟩ := List.mem_iff_getElem?.1 h
  have hidx := extract_tags_idx hk
  rw [hidx]
  simpa using hk

/-! ### Counting spans -/

theorem rawScan_starts_nodup (s : List Char) :
    ((rawScan s 0).map Prod.fst).Nodup := by
  have h := rawScan_pairwise s 0
  have h2 : ((rawScan s 0).map Prod.fst).Pairwise (· < ·) := by
    rw [List.pairwise_map]
    exact h.imp (fun hab => by omega)
  exact h2.imp (fun hab => Nat.ne_of_lt hab)

theorem mem_rawScan_starts {s : List Char} {i : Nat} :
    i ∈ (rawScan s 0).map Prod.fst ↔ (i < s.length ∧ spanStartB s i = true) := by
  rw [List.mem_map]
  constructor
  · rintro ⟨⟨p, mid⟩, hmem, rfl⟩
    have hsw := mem_rawScan_iff.1 hmem
    have hb := hsw.length_le
    exact ⟨by omega, spanStartB_iff.2 ⟨mid, hsw⟩⟩
  · rintro ⟨hlt, hb⟩
    obtain ⟨mid, hsw⟩ := spanStartB_iff.1 hb
    exact ⟨(i, mid), mem_rawScan_iff.2 hsw, rfl⟩

theorem count_spans_eq (s : List Char) : (rawScan s 0).length = numSpans s := by
  have hA := rawScan_starts_nodup s
  have hB : ((List.range s.length).filter (spanStartB s)).Nodup :=
    (List.nodup_range _).filter _
  have hperm : ((rawScan s 0).map Prod.fst).Perm
      ((List.range s.length).filter (spanStartB s)) := by
    rw [List.perm_ext_iff_of_nodup hA hB]
    intro a
    rw [mem_rawScan_starts, List.mem_filter, List.mem_range]
  have hlen := hperm.length_eq
  rw [List.length_map] at hlen
  exact hlen

theorem slice_glue {s : List Char} {b c : Nat} (hbc : b ≤ c) :
    (s.drop b).take (c - b) ++ s.drop c = s.drop b := by
  conv_rhs => rw [← List.take_append_drop (c - b) (s.drop b)]
  congr 1
  rw [List.drop_drop]
  have h2 : b + (c - b) = c := by omega
  rw [h2]

theorem streamFrom_join (s : List Char) : ∀ (ts : List Tag) (last : Nat),
    (∀ t ∈ ts, ∃ mid, SpanWitness s t.start mid ∧
      t.stop = t.start + mid.length + 2 ∧ (extract_tags s)[t.idx - 1]? = some t) →
    ts.Pairwise (fun a b => a.stop ≤ b.start) →
    (∀ t ∈ ts, last ≤ t.start) →
    ((streamFrom s ts last).map (segOriginal s)).flatten = s.drop last := by
  intro ts
  induction ts with
  | nil =>
    intro last _ _ _
    simp only [streamFrom]
    by_cases h : last < s.length
    · simp [h, segOriginal]
    · rw [if_neg h]
      rw [List.drop_eq_nil_of_le (by omega)]
      rfl
  | cons t ts ih =>
    intro last hspan horder hle
    obtain ⟨mid, hsw, hstop, hlook⟩ := hspan t (by simp)
    obtain ⟨hh, ht⟩ := List.pairwise_cons.1 horder
    have hrec := ih t.stop (fun u hu => hspan u (by simp [hu])) ht
      (fun u hu => hh u hu)
    have hseg : segOriginal s (Segment.tag t.text t.idx) =
        (s.drop t.start).take (t.stop - t.start) := by
      simp [segOriginal, hlook]
    have hle1 : last ≤ t.start := hle t (by simp)
    have hts : t.start ≤ t.stop := by omega
    have htext : ∀ c : List Char, segOriginal s (Segment.text c) = c := fun _ => rfl
    simp only [streamFrom]
    by_cases hgap : last < t.start
    · rw [if_pos hgap, List.singleton_append]
      simp only [List.map_cons, List.flatten_cons]
      rw [htext, hseg, hrec, slice_glue hts]
      exact slice_glue (by omega)
    · rw [if_neg hgap]
      have heqs : last = t.start := by omega
      simp only [List.nil_append, List.map_cons, List.flatten_cons]
      rw [hseg, hrec, slice_glue hts, heqs]

theorem build_inline_stream_join (s : List Char) :
    ((build_inline_stream s).map (segOriginal s)).flatten = s := by
  by_cases h : extract_tags s = []
  · simp [build_inline_stream, h, segOriginal]
  · rw [build_inline_stream]
    simp only [h, if_neg]
    have hj := streamFrom_join s (extract_tags s) 0 ?_ (extract_tags_pairwise s)
      (fun _ _ => Nat.zero_le _)
    · simpa using hj
    · intro t htm
      obtain ⟨mid, hsw, hstop, htext⟩ := mem_extract_tags_span htm
      exact ⟨mid, hsw, hstop, extract_tags_lookup htm⟩

theorem streamFrom_text_nonempty (s : List Char) : ∀ (ts : List Tag) (last : Nat),
    (∀ t ∈ ts, t.start < s.length) →
    ∀ c : List Char, Segment.text c ∈ streamFrom s ts last → c ≠ [] := by
  intro ts
  induction ts with
  | nil =>
    intro last _ c hc
    simp only [streamFrom] at hc
    by_cases h : last < s.length
    · rw [if_pos h] at hc
      simp only [List.mem_singleton, Segment.text.injEq] at hc
      subst hc
      intro hnil
      rw [List.drop_eq_nil_iff] at hnil
      omega
    · rw [if_neg h] at hc
      simp at hc
  | cons t ts ih =>
    intro last hlt c hc
    simp only [streamFrom] at hc
    rw [List.mem_append] at hc
    rcases hc with hgap | hrest
    · by_cases h : last < t.start
      · rw [if_pos h] at hgap
        simp only [List.mem_singleton, Segment.text.injEq] at hgap
        subst hgap
        intro hnil
        have h1 : t.start < s.length := hlt t (by simp)
        rw [List.take_eq_nil_iff] at hnil
        rcases hnil with h2 | h2
        · omega
        · rw [List.drop_eq_nil_iff] at h2
          omega
      · rw [if_neg h] at hgap
        simp at hgap
    · rcases List.mem_cons.1 hrest with heq | hmem
      · cases heq
      · exact ih t.stop (fun u hu => hlt u (by simp [hu])) c hmem

theorem streamFrom_tags (s : List Char) : ∀ (ts : List Tag) (last : Nat),
    (streamFrom s ts last).filterMap segTagInfo =
      ts.map (fun t => (t.text, t.idx)) := by
  intro ts
  induction ts with
  | nil =>
    intro last
    simp only [streamFrom]
    by_cases h : last < s.length
    · rw [if_pos h]; simp [segTagInfo]
    · rw [if_neg h]; simp
  | cons t ts ih =>
    intro last
    simp only [streamFrom]
    rw [List.filterMap_append]
    by_cases h : last < t.start
    · rw [if_pos h]
      simp [segTagInfo, ih t.stop]
    · rw [if_neg h]
      simp [segTagInfo, ih t.stop]

theorem build_inline_stream_tags (s : List Char) :
    (build_inline_stream s).filterMap segTagInfo =
      (extract_tags s).map (fun t => (t.text, t.idx)) := by
  by_cases h : extract_tags s = []
  · simp [build_inline_stream, h, segTagInfo]
  · rw [build_inline_stream]
    simp only [h, if_neg]
    exact streamFrom_tags s (extract_tags s) 0

/-! ### Facts about `sanitize_username` -/

theorem allowedChar_not_space {c : Char} (h : allowedChar c = true) :
    pyIsSpace c = false := by
  by_contra hsp
  rw [Bool.not_eq_false] at hsp
  unfold pyIsSpace at hsp
  simp only [Bool.or_eq_true, beq_iff_eq] at hsp
  rcases hsp with ((((rfl | rfl) | rfl) | rfl) | rfl) | rfl <;> revert h <;> decide

theorem sanitize_mem_allowed {s : List Char} :
    ∀ c ∈ sanitize_username s, allowedChar c = true := by
  intro c hc
  simp only [sanitize_username] at hc
  by_cases h : (pyStrip s).map (fun c => if allowedChar c then c else '_') = []
  · rw [if_pos h] at hc
    revert hc
    revert c
    decide
  · rw [if_neg h] at hc
    obtain ⟨d, -, hd⟩ := List.mem_map.1 hc
    by_cases hall : allowedChar d = true
    · rw [if_pos hall] at hd
      rw [← hd]
      exact hall
    · rw [if_neg hall] at hd
      rw [← hd]
      decide

theorem sanitize_ne_nil (s : List Char) : sanitize_username s ≠ [] := by
  simp only [sanitize_username]
  by_cases h : (pyStrip s).map (fun c => if allowedChar c then c else '_') = []
  · rw [if_pos h]
    decide
  · rw [if_neg h]
    exact h

theorem dropWhile_eq_self_of_all {p : Char → Bool} {l : List Char}
    (h : ∀ c ∈ l, p c = false) : l.dropWhile p = l := by
  cases l with
  | nil => rfl
  | cons c cs =>
    rw [List.dropWhile_cons, h c (by simp)]
    simp

theorem pyStrip_eq_self_of_all {l : List Char}
    (h : ∀ c ∈ l, pyIsSpace c = false) : pyStrip l = l := by
  unfold pyStrip
  rw [dropWhile_eq_self_of_all h]
  rw [dropWhile_eq_self_of_all (fun c hc => h c (List.mem_reverse.1 hc))]
  exact List.reverse_reverse l

theorem map_eq_self_of_fix {f : Char → Char} {l : List Char}
    (h : ∀ c ∈ l, f c = c) : l.map f = l := by
  induction l with
  | nil => rfl
  | cons c cs ih =>
    rw [List.map_cons, h c (by simp), ih (fun d hd => h d (by simp [hd]))]

theorem sanitize_fixes_allowed {l : List Char} (hne : l ≠ [])
    (hall : ∀ c ∈ l, allowedChar c = true) : sanitize_username l = l := by
  simp only [sanitize_username]
  rw [pyStrip_eq_self_of_all (fun c hc => allowedChar_not_space (hall c hc))]
  rw [map_eq_self_of_fix (fun c hc => by simp [hall c hc])]
  rw [if_neg hne]

theorem sanitize_idem (s : List Char) :
    sanitize_username (sanitize_username s) = sanitize_username s :=
  sanitize_fixes_allowed (sanitize_ne_nil s) sanitize_mem_allowed

theorem sanitize_strip_nil {s : List Char} (h : pyStrip s = []) :
    sanitize_username s = defaultAnnotator := by
  simp only [sanitize_username]
  rw [h]
  simp

theorem append_ne_self {p q : String} (h : q ≠ "") : p ++ q ≠ p := by
  intro heq
  have hl := congrArg String.length heq
  rw [String.length_append] at hl
  have hq : q.length = 0 := by omega
  apply h
  cases q with
  | mk l =>
    simp only [String.length] at hq
    rw [List.length_eq_zero] at hq
    subst hq
    rfl

theorem dirOf_append_tmp (p : String) : dirOf (p ++ ".tmp") = dirOf p := by
  unfold dirOf
  rw [String.data_append]
  rw [List.reverse_append]
  have h4 : (".tmp" : String).data = ['.', 't', 'm', 'p'] := rfl
  rw [h4]
  have h5 : (['.', 't', 'm', 'p'] : List Char).reverse = ['p', 'm', 't', '.'] := rfl
  rw [h5]
  simp [List.dropWhile_cons]

/-! ### Remaining helper lemmas -/

theorem head?_mem {l : List String} {a : String} (h : l.head? = some a) :
    a ∈ l := by
  cases l with
  | nil => cases h
  | cons x xs =>
    simp only [List.head?_cons, Option.some.injEq] at h
    subst h
    simp

theorem resolve_model_mem {models : List String}
    {arg_model form_model : Option String} {mk : String}
    (h : resolve_model models arg_model form_model = some mk) :
    mk ∈ models := by
  unfold resolve_model at h
  split at h
  · split at h
    · rename_i hs
      cases h
      exact hs
    · exact head?_mem h
  · exact head?_mem h

theorem lookup_mem {l : List (String × String)} {k v : String}
    (h : l.lookup k = some v) : (k, v) ∈ l := by
  induction l with
  | nil => cases h
  | cons hd tl ih =>
    obtain ⟨k1, v1⟩ := hd
    rw [List.lookup_cons] at h
    by_cases hk : (k == k1) = true
    · rw [hk] at h
      simp only [Option.some.injEq] at h
      have hkk : k = k1 := by simpa using hk
      subst hkk
      subst h
      exact List.mem_cons_self _ _
    · have hk2 : (k == k1) = false := by simpa using hk
      rw [hk2] at h
      exact List.mem_cons_of_mem _ (ih h)

theorem pyOr_some_ne {s : String} (b : Option String) (h : s ≠ "") :
    pyOr (some s) b = some s := by
  simp [pyOr, h]

theorem pyOr_falsy {a b : Option String} (h : a = none ∨ a = some "") :
    pyOr a b = b := by
  rcases h with rfl | rfl <;> simp [pyOr]

/-- C1, counterexample: concatenating the contents of the segments of
`build_inline_stream "[A]"` yields `"A"`, not `"[A]"` — tag segments
carry the trimmed bracket interior, so the brackets (and any surrounding
whitespace inside them) are lost by plain concatenation. -/
theorem claim_C1_counterexample :
    concatStream (build_inline_stream ['[', 'A', ']']) ≠ ['[', 'A', ']'] := by
  decide

/-- C1 (amended): the stream covers the source exactly once — replacing
each tag segment by the original bracketed source span of the tag with
its index (and keeping text segments as they are), the concatenation in
order yields exactly S.  Plain concatenation of the contents instead
yields S with each bracketed span replaced by its trimmed interior. -/
theorem claim_C1_roundtrip (s : List Char) :
    ((build_inline_stream s).map (segOriginal s)).flatten = s :=
  build_inline_stream_join s

/-- C2: `extract_tags` recognizes exactly the complete non-nested bracket
spans, scanning left to right: every returned tag sits on such a span and
carries the trimmed interior as its text; every such span is returned;
the k-th tag (0-based) has index k+1; the tags appear in scan order
(disjoint, left to right); and with no span the result is empty.  The
function is total (never throws) by construction. -/
theorem claim_C2 (s : List Char) :
    (∀ t ∈ extract_tags s, IsSpan s t.start t.stop ∧
      ∃ mid, SpanWitness s t.start mid ∧ t.text = pyStrip mid) ∧
    (∀ (i : Nat) (mid : List Char), SpanWitness s i mid →
      ∃ t ∈ extract_tags s, t.start = i ∧ t.stop = i + mid.length + 2 ∧
        t.text = pyStrip mid) ∧
    (∀ (k : Nat) (t : Tag), (extract_tags s)[k]? = some t → t.idx = k + 1) ∧
    (extract_tags s).Pairwise (fun a b => a.stop ≤ b.start) ∧
    ((∀ i j, ¬IsSpan s i j) → extract_tags s = []) := by
  refine ⟨?_, ?_, ?_, extract_tags_pairwise s, ?_⟩
  · intro t ht
    obtain ⟨mid, hsw, hstop, htext⟩ := mem_extract_tags_span ht
    exact ⟨⟨mid, hsw, hstop⟩, mid, hsw, htext⟩
  · intro i mid hsw
    exact span_mem_extract_tags hsw
  · intro k t hk
    exact extract_tags_idx hk
  · intro hno
    cases hX : extract_tags s with
    | nil => rfl
    | cons t ts =>
      have ht : t ∈ extract_tags s := by rw [hX]; simp
      obtain ⟨mid, hsw, hstop, -⟩ := mem_extract_tags_span ht
      exact absurd ⟨mid, hsw, hstop⟩ (hno t.start t.stop)

/-- Witness for C2 at the concrete input `"x[ a ]y"`: the tag at list
position 0 (the span at offsets 1–6 with trimmed text `"a"`) carries
index 1. -/
theorem claim_C2_witness :
    ({ idx := 1, text := ['a'], start := 1, stop := 6 } : Tag).idx = 0 + 1 :=
  (claim_C2 ['x', '[', ' ', 'a', ' ', ']', 'y']).2.2.1 0
    { idx := 1, text := ['a'], start := 1, stop := 6 } (by decide)

/-- C3: the number of tags extracted equals the number of complete
non-nested bracket pairs in the text, and equals `count_tags_in_text` —
the two tag-counting paths always agree. -/
theorem claim_C3 (s : List Char) :
    (extract_tags s).length = numSpans s ∧
    (extract_tags s).length = count_tags_in_text s := by
  constructor
  · rw [extract_tags_length, count_spans_eq]
  · rw [extract_tags_length]
    rfl

/-- C4: with no tags, the stream is a single text segment holding the
whole (possibly empty) string; with tags, no emitted text segment is
empty, and the tag segments carry, in order, exactly the extracted tags'
trimmed texts and 1-based indices. -/
theorem claim_C4 (s : List Char) :
    (extract_tags s = [] → build_inline_stream s = [Segment.text s]) ∧
    (extract_tags s ≠ [] →
      ∀ c : List Char, Segment.text c ∈ build_inline_stream s → c ≠ []) ∧
    (build_inline_stream s).filterMap segTagInfo =
      (extract_tags s).map (fun t => (t.text, t.idx)) := by
  refine ⟨?_, ?_, build_inline_stream_tags s⟩
  · intro h
    simp [build_inline_stream, h]
  · intro h c hc
    rw [build_inline_stream] at hc
    simp only [h, if_neg] at hc
    refine streamFrom_text_nonempty s (extract_tags s) 0 ?_ c hc
    intro t ht
    obtain ⟨mid, hsw, -, -⟩ := mem_extract_tags_span ht
    have := hsw.length_le
    omega

/-- Witness for C4: a whitespace-only string yields one (whitespace) text
segment, and the text segment `"x"` of the stream of `"[A]x"` is
non-empty. -/
theorem claim_C4_witness :
    build_inline_stream [' '] = [Segment.text [' ']] ∧ (['x'] : List Char) ≠ [] :=
  ⟨(claim_C4 [' ']).1 (by decide),
   (claim_C4 ['[', 'A', ']', 'x']).2.1 (by decide) ['x'] (by decide)⟩

/-- C5: `save_annotations` writes the record to a temporary file in the
same directory, syncs it, and atomically renames it over the target: a
failure at any step leaves the target path's content unchanged and
surfaces to the caller; a completed save leaves the full record at the
target and no temporary file.  The target therefore only ever holds no
file, the previous complete record, or the new complete record. -/
theorem claim_C5 (user_dir model : String) (row_index : Nat) (record : String)
    (fs : FS) (fault : Option SaveFault) :
    dirOf (json_path_for user_dir model row_index ++ ".tmp") =
      dirOf (json_path_for user_dir model row_index) ∧
    (∀ fs2, save_annotations user_dir model row_index record fs fault =
        SaveResult.failed fs2 →
      fs2 (json_path_for user_dir model row_index) =
        fs (json_path_for user_dir model row_index)) ∧
    (∀ fs2, save_annotations user_dir model row_index record fs fault =
        SaveResult.ok fs2 →
      fs2 (json_path_for user_dir model row_index) = some record ∧
        fs2 (json_path_for user_dir model row_index ++ ".tmp") = none) ∧
    (∀ f, fault = some f →
      ∃ fs2, save_annotations user_dir model row_index record fs fault =
        SaveResult.failed fs2) ∧
    (fault = none →
      ∃ fs2, save_annotations user_dir model row_index record fs fault =
        SaveResult.ok fs2) := by
  have hne : json_path_for user_dir model row_index ++ ".tmp" ≠
      json_path_for user_dir model row_index := append_ne_self (by decide)
  refine ⟨dirOf_append_tmp _, ?_, ?_, ?_, ?_⟩
  · intro fs2 hsave
    cases fault with
    | none => simp [save_annotations] at hsave
    | some f =>
      cases f with
      | duringWrite leftover =>
        simp only [save_annotations, SaveResult.failed.injEq] at hsave
        subst hsave
        simp [fsSet, Ne.symm hne]
      | duringSync =>
        simp only [save_annotations, SaveResult.failed.injEq] at hsave
        subst hsave
        simp [fsSet, Ne.symm hne]
      | duringRename =>
        simp only [save_annotations, SaveResult.failed.injEq] at hsave
        subst hsave
        simp [fsSet, Ne.symm hne]
  · intro fs2 hsave
    cases fault with
    | some f => cases f <;> simp [save_annotations] at hsave
    | none =>
      simp only [save_annotations, SaveResult.ok.injEq] at hsave
      subst hsave
      constructor
      · simp [fsSet]
      · simp [fsSet, fsRemove, hne]
  · intro f hf
    subst hf
    cases f <;> exact ⟨_, rfl⟩
  · intro hf
    subst hf
    exact ⟨_, rfl⟩

/-- Witness for C5: a sync failure on an empty file system leaves the
target path absent. -/
theorem claim_C5_witness :
    fsSet (fun _ => none) (json_path_for "u" "m" 0 ++ ".tmp") "rec"
        (json_path_for "u" "m" 0) =
      (fun _ => (none : Option String)) (json_path_for "u" "m" 0) :=
  (claim_C5 "u" "m" 0 "rec" (fun _ => none) (some SaveFault.duringSync)).2.1
    (fsSet (fun _ => none) (json_path_for "u" "m" 0 ++ ".tmp") "rec") rfl

/-- C6: `load_existing_annotations` yields an empty result on an absent
or zero-length file; on invalid JSON it renames the file to the path
plus the fixed `.corrupt` suffix (preserving its content) and yields an
empty result; any other read failure is swallowed into an empty result;
a decodable file is returned unchanged.  The model is total, matching
that every control path of the source returns instead of raising. -/
theorem claim_C6 {D : Type} (decode : String → Option D)
    (user_dir model : String) (row_index : Nat) (fs : FS)
    (readFault renameFault : Bool) :
    (fs (json_path_for user_dir model row_index) = none →
      load_existing_annotations decode user_dir model row_index fs readFault
        renameFault = (none, fs)) ∧
    (∀ content, fs (json_path_for user_dir model row_index) = some content →
      content.length = 0 →
      load_existing_annotations decode user_dir model row_index fs readFault
        renameFault = (none, fs)) ∧
    (∀ content, fs (json_path_for user_dir model row_index) = some content →
      content.length ≠ 0 → readFault = true →
      load_existing_annotations decode user_dir model row_index fs readFault
        renameFault = (none, fs)) ∧
    (∀ content, fs (json_path_for user_dir model row_index) = some content →
      content.length ≠ 0 → readFault = false → decode content = none →
      renameFault = false →
      (load_existing_annotations decode user_dir model row_index fs readFault
        renameFault).1 = none ∧
      (load_existing_annotations decode user_dir model row_index fs readFault
        renameFault).2 (json_path_for user_dir model row_index) = none ∧
      (load_existing_annotations decode user_dir model row_index fs readFault
        renameFault).2 (json_path_for user_dir model row_index ++ ".corrupt") =
        some content) ∧
    (∀ content v, fs (json_path_for user_dir model row_index) = some content →
      content.length ≠ 0 → readFault = false → decode content = some v →
      load_existing_annotations decode user_dir model row_index fs readFault
        renameFault = (some v, fs)) := by
  have hne : json_path_for user_dir model row_index ++ ".corrupt" ≠
      json_path_for user_dir model row_index := append_ne_self (by decide)
  refine ⟨?_, ?_, ?_, ?_, ?_⟩
  · intro h
    simp [load_existing_annotations, h]
  · intro content h hlen
    simp [load_existing_annotations, h, hlen]
  · intro content h hlen hrf
    simp [load_existing_annotations, h, hlen, hrf]
  · intro content h hlen hrf hdec hrn
    simp only [load_existing_annotations, h, hlen, hrf, hdec, hrn,
      if_neg, if_false, Bool.false_eq_true]
    refine ⟨?_, ?_, ?_⟩
    · simp [hlen]
    · simp [hlen, fsSet, fsRemove, Ne.symm hne]
    · simp [hlen, fsSet]
  · intro content v h hlen hrf hdec
    simp [load_existing_annotations, h, hlen, hrf, hdec]

/-- Witness for C6: loading a file holding undecodable content quarantines
it under the `.corrupt` suffix with its content intact. -/
theorem claim_C6_witness :
    (load_existing_annotations (fun _ => (none : Option String)) "u" "m" 0
      (fun q => if q = json_path_for "u" "m" 0 then some "bad" else none)
      false false).2 (json_path_for "u" "m" 0 ++ ".corrupt") = some "bad" :=
  ((claim_C6 (fun _ => (none : Option String)) "u" "m" 0
      (fun q => if q = json_path_for "u" "m" 0 then some "bad" else none)
      false false).2.2.2.1 "bad" (by simp) (by decide) rfl rfl rfl).2.2

/-- C7, counterexample: the decision stored by `build_payload_inline` is
the raw form value — submitting `"maybe"` for `dec_tag_1` produces an
item whose decision is neither agree, disagree, nor unset. -/
theorem claim_C7_counterexample :
    (build_payload_inline "u" "m" (some 0) (some 1) none none
        (extract_tags ['[', 'A', ']']) [("dec_tag_1", "maybe")] "" "ts").items =
      [{ tag_index := 1, tag_text := ['A'], decision := some "maybe" }] ∧
    some "maybe" ≠ (none : Option String) ∧ some "maybe" ≠ some "agree" ∧
    some "maybe" ≠ some "disagree" := by
  decide

/-- C7 (amended): for a tagged_text with K extracted tags and any form
input, the built record's items list has length K, `items[i].tag_index`
is `i+1`, `items[i].tag_text` is the i-th extracted tag's trimmed text,
and `items[i].decision` is exactly the form's value under the key
`dec_tag_{i+1}` (absent ↦ unset); it is therefore one of agree,
disagree, or unset whenever the form only carries those values. -/
theorem claim_C7_amended (s : List Char) (form_data : List (String × String))
    (username model : String) (row_index transcript_no : Option Int)
    (title stance : Option String) (notes saved_at : String) :
    (build_payload_inline username model row_index transcript_no title stance
        (extract_tags s) form_data notes saved_at).items.length =
      (extract_tags s).length ∧
    (∀ (k : Nat) (it : Item),
      (build_payload_inline username model row_index transcript_no title stance
        (extract_tags s) form_data notes saved_at).items[k]? = some it →
      it.tag_index = k + 1 ∧
      (∃ t, (extract_tags s)[k]? = some t ∧ it.tag_text = t.text) ∧
      it.decision = form_data.lookup ("dec_tag_" ++ toString (k + 1))) ∧
    ((∀ kv ∈ form_data, kv.2 = "agree" ∨ kv.2 = "disagree") →
      ∀ it ∈ (build_payload_inline username model row_index transcript_no title
          stance (extract_tags s) form_data notes saved_at).items,
        it.decision = none ∨ it.decision = some "agree" ∨
          it.decision = some "disagree") := by
  refine ⟨?_, ?_, ?_⟩
  · simp [build_payload_inline, build_payload_items]
  · intro k it hk
    simp only [build_payload_inline] at hk
    rw [build_payload_items, List.getElem?_map] at hk
    cases hX : (extract_tags s)[k]? with
    | none => rw [hX] at hk; cases hk
    | some t =>
      rw [hX] at hk
      simp only [Option.map_some', Option.some.injEq] at hk
      subst hk
      have hidx := extract_tags_idx hX
      refine ⟨?_, ⟨t, ?_, ?_⟩, ?_⟩
      · show t.idx = k + 1
        exact hidx
      · rfl
      · rfl
      · show form_data.lookup ("dec_tag_" ++ toString t.idx) =
          form_data.lookup ("dec_tag_" ++ toString (k + 1))
        rw [hidx]
  · intro hform it hit
    simp only [build_payload_inline, build_payload_items] at hit
    obtain ⟨t, -, rfl⟩ := List.mem_map.1 hit
    cases hl : form_data.lookup ("dec_tag_" ++ toString t.idx) with
    | none =>
      left
      rfl
    | some v =>
      have hmem := lookup_mem hl
      have hv := hform ("dec_tag_" ++ toString t.idx, v) hmem
      have hv2 : v = "agree" ∨ v = "disagree" := hv
      rcases hv2 with rfl | rfl
      · right
        left
        rfl
      · right
        right
        rfl

/-- Witness for C7 (amended): on `"[A]"` with the form answering agree,
the single item carries tag index 1. -/
theorem claim_C7_amended_witness :
    ({ tag_index := 1, tag_text := ['A'], decision := some "agree" } : Item).tag_index
      = 0 + 1 :=
  ((claim_C7_amended ['[', 'A', ']'] [("dec_tag_1", "agree")] "u" "m" none none
      none none "" "ts").2.1 0
    { tag_index := 1, tag_text := ['A'], decision := some "agree" } (by decide)).1

/-- C9, counterexample: a request carrying the unknown model key
`"bogus"` is not rejected — the handler silently substitutes the first
known model and performs a load, so a file operation does happen for a
request with an unknown model key. -/
theorem claim_C9_counterexample :
    ("bogus" ∉ (["m1"] : List String)) ∧
    annotate 1 ["m1"] (some "bogus") none 0 false =
      AnnotateOutcome.page [FileOp.load "m1" 0] := by
  decide

/-- C9 (amended): an out-of-range row index makes the handler abort (via
the dataset access raising) before any file operation, and an unknown
model key is silently replaced by the first known model rather than
rejected; consequently every load or save the handler performs uses a
model key from the known list and an in-bounds row index. -/
theorem claim_C9_amended (df_len : Nat) (models : List String)
    (arg_model form_model : Option String) (row_idx : Nat) (is_post : Bool) :
    (df_len ≤ row_idx →
      annotate df_len models arg_model form_model row_idx is_post =
        AnnotateOutcome.error) ∧
    (∀ ops, annotate df_len models arg_model form_model row_idx is_post =
        AnnotateOutcome.page ops →
      ∀ op ∈ ops, op.model ∈ models ∧ op.row < df_len) := by
  constructor
  · intro h
    simp [annotate, h]
  · intro ops hops op hop
    unfold annotate at hops
    by_cases hbound : df_len ≤ row_idx
    · rw [if_pos hbound] at hops
      cases hops
    · rw [if_neg hbound] at hops
      cases hres : resolve_model models arg_model form_model with
      | none => rw [hres] at hops; cases hops
      | some mk =>
        rw [hres] at hops
        have hmem := resolve_model_mem hres
        cases is_post with
        | true =>
          simp only [if_true] at hops
          rw [AnnotateOutcome.page.injEq] at hops
          subst hops
          simp only [List.mem_singleton] at hop
          subst hop
          refine ⟨hmem, ?_⟩
          show row_idx < df_len
          omega
        | false =>
          simp only [Bool.false_eq_true, if_false] at hops
          rw [AnnotateOutcome.page.injEq] at hops
          subst hops
          simp only [List.mem_singleton] at hop
          subst hop
          refine ⟨hmem, ?_⟩
          show row_idx < df_len
          omega

/-- Witness for C9 (amended): row 5 of a 1-row dataset errors out, and
the load performed for an unknown model key uses the known model `"m1"`
and row 0. -/
theorem claim_C9_amended_witness :
    annotate 1 ["m1"] (some "bogus") none 5 false = AnnotateOutcome.error ∧
    ((FileOp.load "m1" 0).model ∈ (["m1"] : List String) ∧
      (FileOp.load "m1" 0).row < 1) :=
  ⟨(claim_C9_amended 1 ["m1"] (some "bogus") none 5 false).1 (by decide),
   (claim_C9_amended 1 ["m1"] (some "bogus") none 0 false).2
     [FileOp.load "m1" 0] (by decide) (FileOp.load "m1" 0) (by decide)⟩

/-- C10: the tagged text is resolved through the fixed priority list:
the model-specific column when present and non-empty, else the default
model's column when present and non-empty, else the plain-translation
column when present and non-empty, else the empty string — each fallback
triggering exactly when the preferred value is absent or empty. -/
theorem claim_C10 (row : String → Option String) (model : Option String) :
    (∀ s, rowGet row model = some s → s ≠ "" →
      resolve_tagged_text row model = s) ∧
    ((rowGet row model = none ∨ rowGet row model = some "") →
      (∀ s, row "gpt4o_layer2_annotations" = some s → s ≠ "" →
        resolve_tagged_text row model = s) ∧
      ((row "gpt4o_layer2_annotations" = none ∨
          row "gpt4o_layer2_annotations" = some "") →
        (∀ s, row "English Translation" = some s → s ≠ "" →
          resolve_tagged_text row model = s) ∧
        ((row "English Translation" = none ∨
            row "English Translation" = some "") →
          resolve_tagged_text row model = ""))) := by
  refine ⟨?_, ?_⟩
  · intro s h hne
    unfold resolve_tagged_text
    rw [h, pyOr_some_ne _ hne, pyOr_some_ne _ hne]
    rfl
  · intro h1
    refine ⟨?_, ?_⟩
    · intro s h hne
      unfold resolve_tagged_text
      rw [pyOr_falsy h1, h, pyOr_some_ne _ hne]
      rfl
    · intro h2
      refine ⟨?_, ?_⟩
      · intro s h hne
        unfold resolve_tagged_text
        rw [pyOr_falsy h1, pyOr_falsy h2, h]
        rfl
      · intro h3
        unfold resolve_tagged_text
        rw [pyOr_falsy h1, pyOr_falsy h2]
        rcases h3 with h3 | h3 <;> rw [h3] <;> rfl

/-- Witness for C10: with the model-specific and default columns absent,
the plain-translation column is used. -/
theorem claim_C10_witness :
    resolve_tagged_text
      (fun k => if k = "English Translation" then some "hello" else none)
      (some "gpt5_layer2_annotations") = "hello" :=
  (((claim_C10 (fun k => if k = "English Translation" then some "hello" else none)
      (some "gpt5_layer2_annotations")).2 (Or.inl (by decide))).2
    (Or.inl (by decide))).1 "hello" (by decide) (by decide)

/-- C8: `sanitize_username` strips, replaces every character outside
letters, digits, `.`, `_`, `-` by an underscore, and falls back to the
fixed default name when empty; hence its output is non-empty, drawn from
the allowed character set, the function is idempotent, and any input that
strips to nothing (empty or whitespace-only) yields the default name. -/
theorem claim_C8 (x : List Char) :
    sanitize_username x ≠ [] ∧
    (∀ c ∈ sanitize_username x, allowedChar c = true) ∧
    sanitize_username (sanitize_username x) = sanitize_username x ∧
    (pyStrip x = [] → sanitize_username x = defaultAnnotator) :=
  ⟨sanitize_ne_nil x, sanitize_mem_allowed, sanitize_idem x,
    fun h => sanitize_strip_nil h⟩

/-- Witness for C8: a whitespace-only input yields the default name, and
the character `a` of `sanitize_username "a"` is in the allowed set. -/
theorem claim_C8_witness :
    sanitize_username [' ', ' '] = defaultAnnotator ∧ allowedChar 'a' = true :=
  ⟨(claim_C8 [' ', ' ']).2.2.2 (by decide),
   (claim_C8 ['a']).2.1 'a' (by decide)⟩

end Gomutra

